import Mathlib

/-!
Verification of the gaffer job scheduler (src/runner.rs, src/source.rs).

The development shallowly embeds the scheduler's pure core:
* `steal` — `Supervisor::steal` from runner.rs: walking the priority queue
  with a skip pointer, removing runnable jobs under the exclusion and
  concurrency-cap constraints;
* `enqueue_locked`, `process_queue_ready`, `process_queue_timeout` — the
  merging channel receiver from source.rs;
* `IntervalRecurringJob` and `SourceManager::load` — the recurring registry
  and the loader pass, with `Instant`/`Duration` modelled as `Nat` and the
  ambient clock passed explicitly;
* `sort_priority` — the stable descending sort at the end of a load pass,
  modelled by the stable `List.mergeSort`.

Machine integers: the Rust `working_count as u8` cast in `steal` is modelled
as `% 256`; all other arithmetic stays in `Nat`.
-/

namespace GafferModel

/-- Interface of the `Job` trait: a priority, an exclusion key, and the
`PartialEq` test on exclusion keys (`keyEq` need not be an equivalence:
`NoExclusion` compares unequal to everything). -/
structure JobModel (J P K : Type) where
  priority : J → P
  exclusion : J → K
  keyEq : K → K → Bool

variable {J P K : Type}

/-- Number of `Some` entries of the running array:
`running.iter().filter(|state| state.is_some()).count()` in `Supervisor::steal`. -/
def busyCount (running : List (Option K)) : Nat :=
  (running.filterMap id).length

/-- Throttle test of `Supervisor::steal`: the candidate is blocked when its
priority has a cap and `working_count as u8 >= max_concurrency`. `busyU8`
is the already-cast busy count. -/
def throttleBlocked (climit : P → Option Nat) (busyU8 : Nat) (p : P) : Bool :=
  match climit p with
  | some cap => decide (cap ≤ busyU8)
  | none => false

/-- Exclusion test of `Supervisor::steal`:
`running.iter().flatten().any(|&e| e == job.exclusion())`. -/
def exclConflict (M : JobModel J P K) (running : List (Option K)) (j : J) : Bool :=
  (running.filterMap id).any fun e => M.keyEq e (M.exclusion j)

/-- Loop body state of `Supervisor::steal` (runner.rs lines 60-85): while
`jobs.len() < limit && skip < queue.len()`, examine `queue[skip]`; on a
throttle or exclusion conflict advance `skip`, otherwise `queue.remove(skip)`
and push onto `jobs`. Returns `(jobs, queue)` at loop exit. -/
def stealAux (M : JobModel J P K) (climit : P → Option Nat) (running : List (Option K))
    (busyU8 limit : Nat) (queue : List J) (skip : Nat) (jobs : List J) : List J × List J :=
  if h : jobs.length < limit ∧ skip < queue.length then
    let job := queue.get ⟨skip, h.2⟩
    if throttleBlocked climit busyU8 (M.priority job) then
      stealAux M climit running busyU8 limit queue (skip + 1) jobs
    else if exclConflict M running job then
      stealAux M climit running busyU8 limit queue (skip + 1) jobs
    else
      stealAux M climit running busyU8 limit (queue.eraseIdx skip) skip (jobs ++ [job])
  else (jobs, queue)
termination_by queue.length - skip
decreasing_by
  · omega
  · omega
  · simp only [List.length_eraseIdx, if_pos h.2]
    omega

/-- Model of `Supervisor::steal`: the `Task` wrapper around each stolen job is
dropped (it only carries the job through the pool), and the `usize → u8` cast
of the busy count is `% 256`. Returns the batch and the remaining queue. -/
def steal (M : JobModel J P K) (climit : P → Option Nat) (running : List (Option K))
    (limit : Nat) (queue : List J) : List J × List J :=
  stealAux M climit running (busyCount running % 256) limit queue 0 []

/-- Combined skip condition of one loop iteration of `steal`. -/
def blockedB (M : JobModel J P K) (climit : P → Option Nat) (running : List (Option K))
    (busyU8 : Nat) (j : J) : Bool :=
  throttleBlocked climit busyU8 (M.priority j) || exclConflict M running j

/-- Structural restatement of the `steal` loop: the skip pointer separates the
already-examined kept prefix from the unexamined tail, so the loop is primitive
recursion on the tail. `stealGo need q = (batch, rest)`. -/
def stealGo (M : JobModel J P K) (climit : P → Option Nat) (running : List (Option K))
    (busyU8 : Nat) : Nat → List J → List J × List J
  | 0, q => ([], q)
  | _ + 1, [] => ([], [])
  | need + 1, j :: rest =>
    if blockedB M climit running busyU8 j then
      let out := stealGo M climit running busyU8 (need + 1) rest
      (out.1, j :: out.2)
    else
      let out := stealGo M climit running busyU8 need rest
      (j :: out.1, out.2)

/-- Modelled from the spec: the exact-comparison reading of the throttle test
(§4.4 says the candidate is blocked when `busy ≥ cap` with `busy` the count of
`Some` slots), with no `u8` cast. Compared against `steal` for C10. -/
def stealTrueBusy (M : JobModel J P K) (climit : P → Option Nat) (running : List (Option K))
    (limit : Nat) (queue : List J) : List J × List J :=
  stealAux M climit running (busyCount running) limit queue 0 []

/-- Claim-side predicate (C4's reading): a queued job counts as throttled when
its cap is at most the true pre-call busy count. -/
def throttledAtEntryB (M : JobModel J P K) (climit : P → Option Nat)
    (running : List (Option K)) (j : J) : Bool :=
  match climit (M.priority j) with
  | some cap => decide (cap ≤ busyCount running)
  | none => false

/-- Claim-side predicate (C2's reading): the batch job at position `i` is
dispatched with `busy + i` workers already busy, and that must stay within
the job's cap whenever one is defined. -/
def dispatchThrottleClaimB (M : JobModel J P K) (climit : P → Option Nat) (busy : Nat)
    (batch : List J) : Bool :=
  batch.enum.all fun pr =>
    match climit (M.priority pr.2) with
    | some cap => decide (busy + pr.1 ≤ cap)
    | none => true

/-- MergeResult of the library: the incoming job was absorbed (`success`) or is
handed back (`notMerged`). -/
inductive MergeResult (J : Type) where
  | success
  | notMerged (j : J)

/-- Walk of `Receiver::enqueue_locked`'s `for existing in queue.iter_mut()`
loop: the user merge fn `fn(T, &mut T) -> MergeResult<T>` is modelled as
returning the written-back existing entry next to its result. On `success` the
walk returns at once; if the loop exhausts the queue the (possibly replaced)
incoming job is pushed to the tail. -/
def enqueueWalk (f : J → J → J × MergeResult J) : List J → J → List J
  | [], job => [job]
  | existing :: rest, job =>
    match f job existing with
    | (e', MergeResult.success) => e' :: rest
    | (e', MergeResult.notMerged j') => e' :: enqueueWalk f rest j'

/-- Model of `Receiver::enqueue_locked` (source.rs lines 246-258). -/
def enqueue_locked (mergeFn : Option (J → J → J × MergeResult J)) (queue : List J)
    (job : J) : List J :=
  match mergeFn with
  | some f => enqueueWalk f queue job
  | none => queue ++ [job]

/-- Appends the job still pending after a finished walk, if any. -/
def appendLeftover (st : List J × Option J) : List J :=
  match st.2 with
  | some j => st.1 ++ [j]
  | none => st.1

/-- Modelled from the spec (§4.1.1): one step of the enqueue procedure written
as a left fold: entries already visited are accumulated, and the state carries
the incoming job until some entry absorbs it. -/
def enqueueSpecStep (f : J → J → J × MergeResult J) (acc : List J × Option J) (e : J) :
    List J × Option J :=
  match acc.2 with
  | none => (acc.1 ++ [e], none)
  | some cur =>
    match f cur e with
    | (e', MergeResult.success) => (acc.1 ++ [e'], none)
    | (e', MergeResult.notMerged cur') => (acc.1 ++ [e'], some cur')

/-- Modelled from the spec (§4.1.1): offer the incoming job to each queued
entry in insertion order, stop at the first `merged`, append to the tail when
no entry absorbs it. Compared against `enqueue_locked` for C6. -/
def enqueueProcSpec (mergeFn : Option (J → J → J × MergeResult J)) (queue : List J)
    (job : J) : List J :=
  match mergeFn with
  | none => queue ++ [job]
  | some f => appendLeftover (queue.foldl (enqueueSpecStep f) ([], some job))

/-- Outcome of the blocking `recv_timeout` in `process_queue_timeout`. -/
inductive RecvOutcome (J : Type) where
  | ok (j : J)
  | timedOut
  | disconnected

variable {S : Type}

/-- Model of `Receiver::process_queue_ready`: drain the channel's currently
pending items in order; for each, run the callback then `enqueue_locked`.
The callback's state `S` makes the `FnMut` environment explicit. Returns the
queue, the callback state and `has_new`. -/
def process_queue_ready (mergeFn : Option (J → J → J × MergeResult J)) (cb : S → J → S)
    (pending : List J) (queue : List J) (s : S) : List J × S × Bool :=
  pending.foldl (fun acc item => (enqueue_locked mergeFn acc.1 item, cb acc.2.1 item, true))
    (queue, s, false)

/-- Model of `Receiver::process_queue_timeout` (source.rs lines 223-244): after
the non-blocking drain, block on the channel only when nothing arrived and
(`wait_for_new` or the queue is empty). `wait` is what the blocking
`recv_timeout` observes; its duration only shapes real time and is omitted.
On `Ok(item)` the code runs the callback and `push_back`s the item; on timeout
and on disconnect it returns with the queue untouched (the disconnect arm
additionally sleeps outside the lock, a pure real-time effect). -/
def process_queue_timeout (mergeFn : Option (J → J → J × MergeResult J)) (cb : S → J → S)
    (pending : List J) (queue : List J) (s : S) (waitForNew : Bool) (wait : RecvOutcome J) :
    List J × S :=
  let out := process_queue_ready mergeFn cb pending queue s
  if !out.2.2 && (waitForNew || out.1.isEmpty) then
    match wait with
    | RecvOutcome.ok item => (out.1 ++ [item], cb out.2.1 item)
    | RecvOutcome.timedOut => (out.1, out.2.1)
    | RecvOutcome.disconnected => (out.1, out.2.1)
  else (out.1, out.2.1)

/-- Model of `IntervalRecurringJob`, with `Instant` and `Duration` as `Nat`
ticks and the ambient `Instant::now()` passed explicitly. -/
structure IntervalRecurringJob (J : Type) where
  last_enqueue : Nat
  interval : Nat
  job : J

/-- Method `get`: a clone of the template, when `now > last_enqueue + interval`. -/
def IntervalRecurringJob.get (now : Nat) (r : IntervalRecurringJob J) : Option J :=
  if r.last_enqueue + r.interval < now then some r.job else none

/-- Method `job_enqueued`: reset `last_enqueue` to `now` when the enqueued job
matches the template (`self.job.matches(job)`). -/
def IntervalRecurringJob.job_enqueued (mtch : J → J → Bool) (now : Nat)
    (r : IntervalRecurringJob J) (j : J) : IntervalRecurringJob J :=
  if mtch r.job j then IntervalRecurringJob.mk now r.interval r.job else r

/-- Method `max_sleep`: `last_enqueue + interval`. -/
def IntervalRecurringJob.max_sleep (r : IntervalRecurringJob J) : Nat :=
  r.last_enqueue + r.interval

/-- Model of `SourceManager::soonest_recurring`. -/
def soonest_recurring (rs : List (IntervalRecurringJob J)) : Option Nat :=
  (rs.map IntervalRecurringJob.max_sleep).min?

/-- Model of `SourceManager::queue_timeout`: time left until the soonest
recurring job, saturating at zero (`checked_duration_since(..).unwrap_or(ZERO)`);
with no recurring jobs, the arbitrary 5-second idle cap (5000 ticks). -/
def queue_timeout (now : Nat) (rs : List (IntervalRecurringJob J)) : Nat :=
  match soonest_recurring rs with
  | some t => t - now
  | none => 5000

/-- The `load` callback: notify every recurring entry of an enqueued job. -/
def notifyAll (mtch : J → J → Bool) (now : Nat) (rs : List (IntervalRecurringJob J))
    (j : J) : List (IntervalRecurringJob J) :=
  rs.map fun r => r.job_enqueued mtch now j

/-- Model of `sort_priority` (source.rs lines 117-121):
`sort_by_key(|j| Reverse(j.priority()))` is a stable sort, descending by
priority; a stable sort's output is unique, so the stable `List.mergeSort`
embeds it. -/
def sort_priority [LinearOrder P] (M : JobModel J P K) (queue : List J) : List J :=
  queue.mergeSort fun a b => decide (M.priority b ≤ M.priority a)

/-- Model of `SourceManager::load` up to (not including) the final sort: the
channel phase — `process_queue_ready` when the recurring timeout is already
zero, `process_queue_timeout` otherwise, either way notifying every recurring
entry of each received job — then the recurring phase: collect the due clones
(from the states left by the channel phase), and for each, notify all entries
and push it to the back of the queue. Returns (recurring entries, queue). -/
def loadPre (mergeFn : Option (J → J → J × MergeResult J)) (mtch : J → J → Bool)
    (now : Nat) (pending : List J) (waitForNew : Bool) (wait : RecvOutcome J)
    (rs : List (IntervalRecurringJob J)) (queue : List J) :
    List (IntervalRecurringJob J) × List J :=
  let chan :=
    if queue_timeout now rs = 0 then
      let out := process_queue_ready mergeFn (notifyAll mtch now) pending queue rs
      (out.2.1, out.1)
    else
      let out := process_queue_timeout mergeFn (notifyAll mtch now) pending queue rs
        waitForNew wait
      (out.2, out.1)
  let due := chan.1.filterMap (IntervalRecurringJob.get now)
  due.foldl (fun acc item => (notifyAll mtch now acc.1 item, acc.2 ++ [item])) chan

/-- Model of one full `SourceManager::load` pass: `loadPre`, then
`sort_priority` on the queue. -/
def load [LinearOrder P] (M : JobModel J P K) (mergeFn : Option (J → J → J × MergeResult J))
    (mtch : J → J → Bool) (now : Nat) (pending : List J) (waitForNew : Bool)
    (wait : RecvOutcome J) (rs : List (IntervalRecurringJob J)) (queue : List J) :
    List (IntervalRecurringJob J) × List J :=
  let pre := loadPre mergeFn mtch now pending waitForNew wait rs queue
  (pre.1, sort_priority M pre.2)

/-- Concrete job model for witnesses: a job is a `(priority, exclusion key)`
pair of naturals, keys compared by `==`. -/
def MPair : JobModel (Nat × Nat) Nat Nat :=
  JobModel.mk Prod.fst Prod.snd fun a b => a == b

theorem stealGo_zero (M : JobModel J P K) (climit : P → Option Nat)
    (running : List (Option K)) (busyU8 : Nat) (q : List J) :
    stealGo M climit running busyU8 0 q = ([], q) := by
  cases q <;> rfl

theorem stealGo_nil (M : JobModel J P K) (climit : P → Option Nat)
    (running : List (Option K)) (busyU8 need : Nat) :
    stealGo M climit running busyU8 (need + 1) ([] : List J) = ([], []) := rfl

theorem stealGo_cons (M : JobModel J P K) (climit : P → Option Nat)
    (running : List (Option K)) (busyU8 need : Nat) (j : J) (rest : List J) :
    stealGo M climit running busyU8 (need + 1) (j :: rest) =
      if blockedB M climit running busyU8 j then
        ((stealGo M climit running busyU8 (need + 1) rest).1,
         j :: (stealGo M climit running busyU8 (need + 1) rest).2)
      else
        (j :: (stealGo M climit running busyU8 need rest).1,
         (stealGo M climit running busyU8 need rest).2) := rfl

theorem stealAux_eq_go (M : JobModel J P K) (climit : P → Option Nat)
    (running : List (Option K)) (busyU8 limit : Nat) :
    ∀ (n : Nat) (queue : List J) (skip : Nat) (jobs : List J),
      queue.length - skip = n → skip ≤ queue.length →
      stealAux M climit running busyU8 limit queue skip jobs =
        (jobs ++ (stealGo M climit running busyU8 (limit - jobs.length) (queue.drop skip)).1,
         queue.take skip ++
           (stealGo M climit running busyU8 (limit - jobs.length) (queue.drop skip)).2) := by
  intro n
  induction n with
  | zero =>
    intro queue skip jobs hn hle
    have hskip : skip = queue.length := by omega
    have hdrop : queue.drop skip = [] := by
      rw [hskip, List.drop_length]
    have htake : queue.take skip = queue := List.take_of_length_le (by omega)
    rw [stealAux.eq_def, dif_neg (by omega), hdrop, htake]
    cases hlim : limit - jobs.length with
    | zero => simp [stealGo_zero]
    | succ m => simp [stealGo_nil]
  | succ n ih =>
    intro queue skip jobs hn hle
    have hlt : skip < queue.length := by omega
    have hdrop : queue.drop skip = queue[skip] :: queue.drop (skip + 1) :=
      List.drop_eq_getElem_cons hlt
    have htake1 : queue.take (skip + 1) = queue.take skip ++ [queue[skip]] := by
      rw [List.take_succ, List.getElem?_eq_getElem hlt]
      rfl
    by_cases hjl : jobs.length < limit
    case neg =>
      have hneed : limit - jobs.length = 0 := by omega
      rw [stealAux.eq_def, dif_neg (by omega), hneed]
      simp [stealGo_zero, List.take_append_drop]
    case pos =>
      obtain ⟨m, hm⟩ : ∃ m, limit - jobs.length = m + 1 :=
        ⟨limit - jobs.length - 1, by omega⟩
      have hskipbranch :
          blockedB M climit running busyU8 queue[skip] = true →
          stealAux M climit running busyU8 limit queue (skip + 1) jobs =
            (jobs ++
              (stealGo M climit running busyU8 (limit - jobs.length) (queue.drop skip)).1,
             queue.take skip ++
              (stealGo M climit running busyU8 (limit - jobs.length) (queue.drop skip)).2) := by
        intro hb
        rw [ih queue (skip + 1) jobs (by omega) (by omega), hm, hdrop, stealGo_cons,
          if_pos hb, htake1, List.append_assoc]
        rfl
      rw [stealAux.eq_def, dif_pos ⟨hjl, hlt⟩]
      simp only [List.get_eq_getElem]
      by_cases hthr : throttleBlocked climit busyU8 (M.priority queue[skip]) = true
      case pos =>
        rw [if_pos hthr]
        exact hskipbranch (by simp [blockedB, hthr])
      case neg =>
        rw [if_neg hthr]
        by_cases hexc : exclConflict M running queue[skip] = true
        case pos =>
          rw [if_pos hexc]
          exact hskipbranch (by simp [blockedB, hexc])
        case neg =>
          rw [if_neg hexc]
          have hb : blockedB M climit running busyU8 queue[skip] = false := by
            simp [blockedB, hthr, hexc]
          have hertake : (queue.eraseIdx skip).take skip = queue.take skip := by
            rw [List.eraseIdx_eq_take_drop_succ]
            exact List.take_left' (by simp [List.length_take]; omega)
          have herdrop : (queue.eraseIdx skip).drop skip = queue.drop (skip + 1) := by
            rw [List.eraseIdx_eq_take_drop_succ]
            exact List.drop_left' (by simp [List.length_take]; omega)
          have hm' : limit - (jobs ++ [queue[skip]]).length = m := by
            simp
            omega
          rw [ih (queue.eraseIdx skip) skip (jobs ++ [queue[skip]])
            (by rw [List.length_eraseIdx, if_pos hlt]; omega)
            (by rw [List.length_eraseIdx, if_pos hlt]; omega)]
          rw [hm', hertake, herdrop, hm, hdrop, stealGo_cons, if_neg (by simp [hb])]
          simp

/-- Unfolding of `steal` to the structural recursion. -/
theorem steal_eq_go (M : JobModel J P K) (climit : P → Option Nat)
    (running : List (Option K)) (limit : Nat) (queue : List J) :
    steal M climit running limit queue =
      stealGo M climit running (busyCount running % 256) limit queue := by
  rw [steal, stealAux_eq_go M climit running (busyCount running % 256) limit
    (queue.length - 0) queue 0 [] rfl (by omega)]
  simp

theorem stealTrueBusy_eq_go (M : JobModel J P K) (climit : P → Option Nat)
    (running : List (Option K)) (limit : Nat) (queue : List J) :
    stealTrueBusy M climit running limit queue =
      stealGo M climit running (busyCount running) limit queue := by
  rw [stealTrueBusy, stealAux_eq_go M climit running (busyCount running) limit
    (queue.length - 0) queue 0 [] rfl (by omega)]
  simp

theorem stealGo_batch_length (M : JobModel J P K) (climit : P → Option Nat)
    (running : List (Option K)) (busyU8 : Nat) :
    ∀ (need : Nat) (q : List J),
      (stealGo M climit running busyU8 need q).1.length ≤ need := by
  intro need q
  induction q generalizing need with
  | nil =>
    cases need with
    | zero => simp [stealGo_zero]
    | succ m => simp [stealGo_nil]
  | cons j rest ih =>
    cases need with
    | zero => simp [stealGo_zero]
    | succ m =>
      rw [stealGo_cons]
      by_cases hb : blockedB M climit running busyU8 j = true
      · rw [if_pos hb]
        simpa using ih (m + 1)
      · rw [if_neg hb]
        simpa using Nat.succ_le_succ (ih m)

theorem stealGo_batch_sublist (M : JobModel J P K) (climit : P → Option Nat)
    (running : List (Option K)) (busyU8 : Nat) :
    ∀ (need : Nat) (q : List J),
      (stealGo M climit running busyU8 need q).1.Sublist q := by
  intro need q
  induction q generalizing need with
  | nil =>
    cases need with
    | zero => simp [stealGo_zero]
    | succ m => simp [stealGo_nil]
  | cons j rest ih =>
    cases need with
    | zero => simp [stealGo_zero]
    | succ m =>
      rw [stealGo_cons]
      by_cases hb : blockedB M climit running busyU8 j = true
      · rw [if_pos hb]
        exact (ih (m + 1)).cons j
      · rw [if_neg hb]
        exact (ih m).cons₂ j

theorem stealGo_rest_sublist (M : JobModel J P K) (climit : P → Option Nat)
    (running : List (Option K)) (busyU8 : Nat) :
    ∀ (need : Nat) (q : List J),
      (stealGo M climit running busyU8 need q).2.Sublist q := by
  intro need q
  induction q generalizing need with
  | nil =>
    cases need with
    | zero => simp [stealGo_zero]
    | succ m => simp [stealGo_nil]
  | cons j rest ih =>
    cases need with
    | zero => rw [stealGo_zero]
    | succ m =>
      rw [stealGo_cons]
      by_cases hb : blockedB M climit running busyU8 j = true
      · rw [if_pos hb]
        exact (ih (m + 1)).cons₂ j
      · rw [if_neg hb]
        exact (ih m).cons j

theorem stealGo_perm (M : JobModel J P K) (climit : P → Option Nat)
    (running : List (Option K)) (busyU8 : Nat) :
    ∀ (need : Nat) (q : List J),
      ((stealGo M climit running busyU8 need q).1 ++
        (stealGo M climit running busyU8 need q).2).Perm q := by
  intro need q
  induction q generalizing need with
  | nil =>
    cases need with
    | zero => simp [stealGo_zero]
    | succ m => simp [stealGo_nil]
  | cons j rest ih =>
    cases need with
    | zero => simp [stealGo_zero]
    | succ m =>
      rw [stealGo_cons]
      by_cases hb : blockedB M climit running busyU8 j = true
      · rw [if_pos hb]
        exact List.perm_middle.trans ((ih (m + 1)).cons j)
      · rw [if_neg hb]
        exact (ih m).cons j

theorem stealGo_batch_not_blocked (M : JobModel J P K) (climit : P → Option Nat)
    (running : List (Option K)) (busyU8 : Nat) :
    ∀ (need : Nat) (q : List J) (b : J),
      b ∈ (stealGo M climit running busyU8 need q).1 →
        blockedB M climit running busyU8 b = false := by
  intro need q
  induction q generalizing need with
  | nil =>
    intro b hb
    cases need with
    | zero => simp [stealGo_zero] at hb
    | succ m => simp [stealGo_nil] at hb
  | cons j rest ih =>
    intro b hb
    cases need with
    | zero => simp [stealGo_zero] at hb
    | succ m =>
      rw [stealGo_cons] at hb
      by_cases hblk : blockedB M climit running busyU8 j = true
      · rw [if_pos hblk] at hb
        exact ih (m + 1) b hb
      · rw [if_neg hblk] at hb
        rcases List.mem_cons.mp hb with hbj | hb'
        · rw [hbj]
          exact Bool.eq_false_iff.mpr hblk
        · exact ih m b hb'

theorem stealGo_blocked_mem_rest (M : JobModel J P K) (climit : P → Option Nat)
    (running : List (Option K)) (busyU8 : Nat) :
    ∀ (need : Nat) (q : List J) (x : J),
      x ∈ q → blockedB M climit running busyU8 x = true →
        x ∈ (stealGo M climit running busyU8 need q).2 := by
  intro need q
  induction q generalizing need with
  | nil =>
    intro x hx
    simp at hx
  | cons j rest ih =>
    intro x hx hbx
    cases need with
    | zero =>
      rw [stealGo_zero]
      exact hx
    | succ m =>
      rw [stealGo_cons]
      by_cases hblk : blockedB M climit running busyU8 j = true
      · rw [if_pos hblk]
        rcases List.mem_cons.mp hx with hxj | hx'
        · rw [hxj]
          exact List.mem_cons_self _ _
        · exact List.mem_cons_of_mem _ (ih (m + 1) x hx' hbx)
      · rw [if_neg hblk]
        rcases List.mem_cons.mp hx with hxj | hx'
        · rw [hxj] at hbx
          exact absurd hbx hblk
        · exact ih m x hx' hbx

theorem stealGo_rest_higher_blocked [LinearOrder P] (M : JobModel J P K)
    (climit : P → Option Nat) (running : List (Option K)) (busyU8 : Nat) :
    ∀ (need : Nat) (q : List J),
      q.Pairwise (fun a b => M.priority b ≤ M.priority a) →
      ∀ r ∈ (stealGo M climit running busyU8 need q).2,
        ∀ b ∈ (stealGo M climit running busyU8 need q).1,
          M.priority b < M.priority r → blockedB M climit running busyU8 r = true := by
  intro need q
  induction q generalizing need with
  | nil =>
    intro _ r hr
    cases need with
    | zero => simp [stealGo_zero] at hr
    | succ m => simp [stealGo_nil] at hr
  | cons j rest ih =>
    intro hpw r hr b hb hlt
    have hhead : ∀ x ∈ rest, M.priority x ≤ M.priority j := (List.pairwise_cons.mp hpw).1
    have htail := (List.pairwise_cons.mp hpw).2
    cases need with
    | zero =>
      rw [stealGo_zero] at hb
      simp at hb
    | succ m =>
      rw [stealGo_cons] at hr hb
      by_cases hblk : blockedB M climit running busyU8 j = true
      · rw [if_pos hblk] at hr hb
        rcases List.mem_cons.mp hr with hrj | hr'
        · rw [hrj]
          exact hblk
        · exact ih (m + 1) htail r hr' b hb hlt
      · rw [if_neg hblk] at hr hb
        rcases List.mem_cons.mp hb with hbj | hb'
        · exfalso
          have hrrest : r ∈ rest :=
            List.Sublist.mem hr (stealGo_rest_sublist M climit running busyU8 m rest)
          rw [hbj] at hlt
          exact absurd hlt (not_lt.mpr (hhead r hrrest))
        · exact ih m htail r hr b hb' hlt

/-- C1 (amended): every job in a stolen batch has an exclusion key comparing
unequal, under the key `PartialEq`, to every key recorded in the pre-batch
running array. The claim's further part — that the running keys together with
the keys of the whole batch contain no duplicates — fails on the code: the
exclusion test in `Supervisor::steal` only consults `running`, never the batch
under construction (see the counterexample). -/
theorem steal_batch_keys_avoid_running (M : JobModel J P K) (climit : P → Option Nat)
    (running : List (Option K)) (limit : Nat) (queue : List J) :
    ∀ b ∈ (steal M climit running limit queue).1,
      ∀ e ∈ running.filterMap id, M.keyEq e (M.exclusion b) = false := by
  intro b hb e he
  rw [steal_eq_go] at hb
  have hnb := stealGo_batch_not_blocked M climit running (busyCount running % 256)
    limit queue b hb
  simp only [blockedB, Bool.or_eq_false_iff] at hnb
  have hexcl := hnb.2
  cases hk : M.keyEq e (M.exclusion b) with
  | false => rfl
  | true =>
    exfalso
    have : exclConflict M running b = true := by
      simp only [exclConflict, List.any_eq_true]
      exact ⟨e, he, hk⟩
    rw [this] at hexcl
    exact Bool.noConfusion hexcl

theorem steal_batch_keys_avoid_running_witness :
    MPair.keyEq 1 (MPair.exclusion ((6 : Nat), (5 : Nat))) = false := by
  refine steal_batch_keys_avoid_running MPair (fun _ => none) [some 1, some 9] 2
    [(4, 1), (6, 5)] (6, 5) ?_ 1 (by decide)
  rw [steal_eq_go]
  decide

theorem steal_batch_keys_counterexample :
    ¬ List.Pairwise (fun a b => MPair.keyEq a b = false)
        ((([none, none] : List (Option Nat)).filterMap id) ++
          ((steal MPair (fun _ => none) [none, none] 2 [(7, 1), (8, 1)]).1.map
            MPair.exclusion)) := by
  rw [steal_eq_go]
  decide

/-- C2 (amended): for every job in a stolen batch whose priority carries a cap,
the pre-batch busy count reduced `% 256` (the `u8` cast) is strictly below the
cap. The claim's stronger reading — pre-batch busy count plus the batch jobs
integrated before it stays within the cap — fails on the code: `working_count`
is not updated while the batch is built (see the counterexample). -/
theorem steal_capped_batch_below_cap (M : JobModel J P K) (climit : P → Option Nat)
    (running : List (Option K)) (limit : Nat) (queue : List J) :
    ∀ b ∈ (steal M climit running limit queue).1,
      ∀ cap, climit (M.priority b) = some cap → busyCount running % 256 < cap := by
  intro b hb cap hcap
  rw [steal_eq_go] at hb
  have hnb := stealGo_batch_not_blocked M climit running (busyCount running % 256)
    limit queue b hb
  simp only [blockedB, Bool.or_eq_false_iff] at hnb
  have hthr := hnb.1
  rw [throttleBlocked, hcap] at hthr
  simp at hthr
  omega

theorem steal_capped_batch_below_cap_witness :
    busyCount [some (9 : Nat), none] % 256 < 2 := by
  refine steal_capped_batch_below_cap MPair (fun _ => some 2) [some 9, none] 1
    [(5, 3)] (5, 3) ?_ 2 rfl
  rw [steal_eq_go]
  decide

theorem steal_throttle_claim_counterexample :
    dispatchThrottleClaimB MPair (fun _ => some 1)
      (busyCount ([none, none, none] : List (Option Nat)))
      (steal MPair (fun _ => some 1) [none, none, none] 3 [(0, 1), (0, 2), (0, 3)]).1 =
      false := by
  rw [steal_eq_go]
  decide

/-- C4 (amended): a steal call returns at most `limit` jobs, a subsequence of
the queue in queue order; the remaining queue is a subsequence too and together
with the batch is a permutation of the queue (nothing else added or lost);
every batch job passed both the throttle test — against the entry busy count
cast to `u8`, i.e. `% 256`, never updated within the call — and the exclusion
test; and every queued job failing either test stays in the queue. The claim
as frozen compares the cap against the uncast busy count, which diverges from
the code once 256 or more workers are busy (see the counterexample). -/
theorem steal_snapshot_characterisation (M : JobModel J P K) (climit : P → Option Nat)
    (running : List (Option K)) (limit : Nat) (queue : List J) :
    (steal M climit running limit queue).1.length ≤ limit ∧
    (steal M climit running limit queue).1.Sublist queue ∧
    (steal M climit running limit queue).2.Sublist queue ∧
    ((steal M climit running limit queue).1 ++
      (steal M climit running limit queue).2).Perm queue ∧
    (∀ b ∈ (steal M climit running limit queue).1,
      throttleBlocked climit (busyCount running % 256) (M.priority b) = false ∧
        exclConflict M running b = false) ∧
    (∀ j ∈ queue,
      (throttleBlocked climit (busyCount running % 256) (M.priority j) = true ∨
        exclConflict M running j = true) → j ∈ (steal M climit running limit queue).2) := by
  rw [steal_eq_go]
  refine ⟨stealGo_batch_length M climit running _ limit queue,
    stealGo_batch_sublist M climit running _ limit queue,
    stealGo_rest_sublist M climit running _ limit queue,
    stealGo_perm M climit running _ limit queue, ?_, ?_⟩
  · intro b hb
    have hnb := stealGo_batch_not_blocked M climit running (busyCount running % 256)
      limit queue b hb
    simpa [blockedB, Bool.or_eq_false_iff] using hnb
  · intro j hj hdis
    refine stealGo_blocked_mem_rest M climit running (busyCount running % 256)
      limit queue j hj ?_
    simp only [blockedB, Bool.or_eq_true]
    exact hdis

theorem steal_snapshot_witness :
    ((9 : Nat), (1 : Nat)) ∈
      (steal MPair (fun p => if p = 9 then some 1 else none) [some 1, none] 2
        [(9, 1), (8, 2), (7, 3)]).2 := by
  refine (steal_snapshot_characterisation MPair (fun p => if p = 9 then some 1 else none)
    [some 1, none] 2 [(9, 1), (8, 2), (7, 3)]).2.2.2.2.2 (9, 1) (by decide) ?_
  left
  decide

set_option maxRecDepth 10000 in
theorem steal_snapshot_counterexample :
    ¬ (∀ j ∈ [((5 : Nat), (7 : Nat))],
        throttledAtEntryB MPair (fun _ => some 1) (List.replicate 256 (some 999)) j = true →
          j ∈ (steal MPair (fun _ => some 1) (List.replicate 256 (some 999)) 1
            [(5, 7)]).2) := by
  rw [steal_eq_go]
  decide

/-- C5: on a priority-descending queue, when a steal call returns a batch, no
job left behind both has strictly higher priority than some batch job and was
runnable under the pre-batch running array: any such job either conflicts on
exclusion with a running key or its priority's cap is at most the pre-batch
busy count. -/
theorem steal_priority_within_runnable [LinearOrder P] (M : JobModel J P K)
    (climit : P → Option Nat) (running : List (Option K)) (limit : Nat) (queue : List J)
    (hsorted : queue.Pairwise fun a b => M.priority b ≤ M.priority a)
    (hne : (steal M climit running limit queue).1 ≠ []) :
    ∀ r ∈ (steal M climit running limit queue).2,
      ∀ b ∈ (steal M climit running limit queue).1,
        M.priority b < M.priority r →
          exclConflict M running r = true ∨
            ∃ cap, climit (M.priority r) = some cap ∧ cap ≤ busyCount running := by
  intro r hr b hb hlt
  rw [steal_eq_go] at hr hb
  have hblk := stealGo_rest_higher_blocked M climit running (busyCount running % 256)
    limit queue hsorted r hr b hb hlt
  simp only [blockedB, Bool.or_eq_true] at hblk
  rcases hblk with ht | he
  · right
    rw [throttleBlocked] at ht
    cases hc : climit (M.priority r) with
    | none =>
      rw [hc] at ht
      exact Bool.noConfusion ht
    | some cap =>
      rw [hc] at ht
      simp at ht
      exact ⟨cap, rfl, ht.trans (Nat.mod_le _ _)⟩
  · left
    exact he

theorem steal_priority_within_runnable_witness :
    exclConflict MPair [some 1, none] ((5 : Nat), (1 : Nat)) = true ∨
      ∃ cap, (none : Option Nat) = some cap ∧ cap ≤ busyCount [some (1 : Nat), none] := by
  refine steal_priority_within_runnable MPair (fun _ => none) [some 1, none] 2
    [(5, 1), (3, 2)] (by decide) ?_ (5, 1) ?_ (3, 2) ?_ (by decide)
  · rw [steal_eq_go]
    decide
  · rw [steal_eq_go]
    decide
  · rw [steal_eq_go]
    decide

set_option maxRecDepth 10000 in
/-- C10: the busy count in `steal` is cast `usize → u8` before the throttle
comparison, i.e. reduced `% 256`. Whenever at most 255 workers are busy the
behaviour coincides with the exact-comparison reading (`stealTrueBusy`), and
with 256 busy workers a job capped at 1 passes the throttle test and is stolen
even though the true busy count exceeds its cap. -/
theorem steal_busy_u8_cast :
    (∀ (J P K : Type) (M : JobModel J P K) (climit : P → Option Nat)
        (running : List (Option K)) (limit : Nat) (queue : List J),
      busyCount running < 256 →
        steal M climit running limit queue = stealTrueBusy M climit running limit queue) ∧
    (steal MPair (fun _ => some 1) (List.replicate 256 (some 999)) 1
        [((5 : Nat), (7 : Nat))]).1 = [(5, 7)] ∧
    (stealTrueBusy MPair (fun _ => some 1) (List.replicate 256 (some 999)) 1
        [(5, 7)]).1 = [] := by
  refine ⟨?_, ?_, ?_⟩
  · intro J P K M climit running limit queue h
    rw [steal, stealTrueBusy, Nat.mod_eq_of_lt h]
  · rw [steal_eq_go]
    decide
  · rw [stealTrueBusy_eq_go]
    decide

theorem steal_busy_u8_cast_witness :
    steal MPair (fun _ => (none : Option Nat)) [some 0] 1 [((1 : Nat), (2 : Nat))] =
      stealTrueBusy MPair (fun _ => none) [some 0] 1 [(1, 2)] :=
  steal_busy_u8_cast.1 _ _ _ MPair (fun _ => none) [some 0] 1 [(1, 2)] (by decide)

theorem enqueueWalk_nil (f : J → J → J × MergeResult J) (j : J) :
    enqueueWalk f [] j = [j] := rfl

theorem enqueueWalk_cons (f : J → J → J × MergeResult J) (e : J) (rest : List J) (j : J) :
    enqueueWalk f (e :: rest) j =
      match f j e with
      | (e', MergeResult.success) => e' :: rest
      | (e', MergeResult.notMerged j') => e' :: enqueueWalk f rest j' := rfl

theorem enqueueWalk_length (f : J → J → J × MergeResult J) :
    ∀ (q : List J) (j : J),
      (enqueueWalk f q j).length = q.length ∨
        (enqueueWalk f q j).length = q.length + 1 := by
  intro q
  induction q with
  | nil =>
    intro j
    right
    rfl
  | cons e rest ih =>
    intro j
    rcases hfe : f j e with ⟨e', res⟩
    cases res with
    | success =>
      left
      simp [enqueueWalk_cons, hfe]
    | notMerged j' =>
      rcases ih j' with h | h
      · left
        simp [enqueueWalk_cons, hfe, h]
      · right
        simp [enqueueWalk_cons, hfe, h]

theorem foldl_enqueueSpecStep_none (f : J → J → J × MergeResult J) :
    ∀ (q : List J) (l : List J),
      q.foldl (enqueueSpecStep f) (l, none) = (l ++ q, none) := by
  intro q
  induction q with
  | nil =>
    intro l
    simp
  | cons e rest ih =>
    intro l
    rw [List.foldl_cons]
    show rest.foldl (enqueueSpecStep f) (l ++ [e], none) = (l ++ e :: rest, none)
    rw [ih (l ++ [e])]
    simp

theorem foldl_enqueueSpecStep_some (f : J → J → J × MergeResult J) :
    ∀ (q : List J) (l : List J) (j : J),
      appendLeftover (q.foldl (enqueueSpecStep f) (l, some j)) = l ++ enqueueWalk f q j := by
  intro q
  induction q with
  | nil =>
    intro l j
    simp [appendLeftover, enqueueWalk_nil]
  | cons e rest ih =>
    intro l j
    rw [List.foldl_cons]
    rcases hfe : f j e with ⟨e', res⟩
    cases res with
    | success =>
      have hstep : enqueueSpecStep f (l, some j) e = (l ++ [e'], none) := by
        simp [enqueueSpecStep, hfe]
      rw [hstep, foldl_enqueueSpecStep_none f rest (l ++ [e'])]
      simp [appendLeftover, enqueueWalk_cons, hfe]
    | notMerged j' =>
      have hstep : enqueueSpecStep f (l, some j) e = (l ++ [e'], some j') := by
        simp [enqueueSpecStep, hfe]
      rw [hstep, ih (l ++ [e']) j']
      simp [enqueueWalk_cons, hfe]

/-- C6: with no merge function configured, enqueue appends to the tail (the
queue grows by exactly one); with a merge function, the walk of
`enqueue_locked` implements the spec's §4.1.1 procedure (offer the incoming
job to each queued entry in insertion order, stop at the first `merged`,
append the final incoming value if none absorbs it), and it either leaves the
length unchanged (absorbed) or appends exactly one job — never losing one. -/
theorem enqueue_locked_spec (q : List J) (j : J) :
    enqueue_locked (none : Option (J → J → J × MergeResult J)) q j = q ++ [j] ∧
    (enqueue_locked (none : Option (J → J → J × MergeResult J)) q j).length =
      q.length + 1 ∧
    (∀ f : J → J → J × MergeResult J,
      enqueue_locked (some f) q j = enqueueProcSpec (some f) q j) ∧
    (∀ f : J → J → J × MergeResult J,
      (enqueue_locked (some f) q j).length = q.length ∨
        (enqueue_locked (some f) q j).length = q.length + 1) := by
  refine ⟨rfl, by simp [enqueue_locked], ?_, ?_⟩
  · intro f
    show enqueueWalk f q j = appendLeftover (q.foldl (enqueueSpecStep f) ([], some j))
    have h := foldl_enqueueSpecStep_some f q [] j
    simpa using h.symm
  · intro f
    show (enqueueWalk f q j).length = _ ∨ _
    exact enqueueWalk_length f q j

/-- C3 (amended): a job received during the blocking channel wait of
`process_queue_timeout` has the callback run on it, but is then appended
directly to the queue tail with `push_back`, bypassing the §4.1.1 merge
procedure of `enqueue_locked` (see the counterexample, where a configured
merge function would have absorbed it). -/
theorem process_queue_timeout_ok_pushes_back (mergeFn : Option (J → J → J × MergeResult J))
    (cb : S → J → S) (queue : List J) (s : S) (waitForNew : Bool) (item : J)
    (h : waitForNew = true ∨ queue = []) :
    process_queue_timeout mergeFn cb [] queue s waitForNew (RecvOutcome.ok item) =
      (queue ++ [item], cb s item) := by
  rcases h with h | h
  · simp [process_queue_timeout, process_queue_ready, h]
  · subst h
    simp [process_queue_timeout, process_queue_ready]

theorem process_queue_timeout_ok_witness :
    process_queue_timeout (some fun _ ex => (ex, MergeResult.success))
        (fun (s : List Nat) (x : Nat) => s ++ [x]) [] [0] [] true (RecvOutcome.ok 1) =
      ([0, 1], [1]) := by
  have h := process_queue_timeout_ok_pushes_back
    (some fun _ ex => (ex, MergeResult.success))
    (fun (s : List Nat) (x : Nat) => s ++ [x]) [0] [] true 1 (Or.inl rfl)
  simpa using h

theorem process_queue_timeout_merge_counterexample :
    (process_queue_timeout (some fun _ ex => (ex, MergeResult.success))
        (fun (s : List Nat) (x : Nat) => s ++ [x]) [] [0] [] true (RecvOutcome.ok 1)).1 ≠
      enqueue_locked (some fun _ ex => (ex, MergeResult.success)) [0] 1 := by
  decide

/-- C9: when the blocking wait observes producer disconnection, the call
returns normally — no error value exists to propagate — with the queue and the
callback state exactly as they were; the accompanying sleep is a pure
real-time effect outside the model. -/
theorem process_queue_timeout_disconnected (mergeFn : Option (J → J → J × MergeResult J))
    (cb : S → J → S) (queue : List J) (s : S) (waitForNew : Bool) :
    process_queue_timeout mergeFn cb [] queue s waitForNew RecvOutcome.disconnected =
      (queue, s) := by
  by_cases h : (waitForNew || queue.isEmpty) = true
  · simp [process_queue_timeout, process_queue_ready, h]
  · simp [process_queue_timeout, process_queue_ready, h]

/-- C7: an interval recurring entry emits a clone of its template exactly when
`now > last_enqueue + interval` and `none` otherwise (the entry itself, taken
by shared reference, is unchanged either way); `job_enqueued` resets
`last_enqueue` to `now` exactly when the job matches the template, leaving the
entry untouched otherwise; and `max_sleep` is `last_enqueue + interval`. -/
theorem interval_recurring_contract (mtch : J → J → Bool) (now : Nat)
    (r : IntervalRecurringJob J) (j : J) :
    (IntervalRecurringJob.get now r = some r.job ↔ r.last_enqueue + r.interval < now) ∧
    (IntervalRecurringJob.get now r = none ↔ ¬ r.last_enqueue + r.interval < now) ∧
    (mtch r.job j = true →
      r.job_enqueued mtch now j = IntervalRecurringJob.mk now r.interval r.job) ∧
    (mtch r.job j = false → r.job_enqueued mtch now j = r) ∧
    r.max_sleep = r.last_enqueue + r.interval := by
  refine ⟨?_, ?_, ?_, ?_, rfl⟩
  · rw [IntervalRecurringJob.get]
    by_cases h : r.last_enqueue + r.interval < now
    · simp [h]
    · simp [h]
  · rw [IntervalRecurringJob.get]
    by_cases h : r.last_enqueue + r.interval < now
    · simp [h]
    · simp [h]
  · intro h
    rw [IntervalRecurringJob.job_enqueued, if_pos h]
  · intro h
    rw [IntervalRecurringJob.job_enqueued, if_neg (by simp [h])]

theorem interval_recurring_contract_witness :
    IntervalRecurringJob.job_enqueued (fun a b => a == b) 10
        (IntervalRecurringJob.mk 3 2 (7 : Nat)) 7 =
      IntervalRecurringJob.mk 10 2 7 :=
  (interval_recurring_contract (fun a b => a == b) 10
    (IntervalRecurringJob.mk 3 2 7) 7).2.2.1 (by decide)

theorem prioLe_trans [LinearOrder P] (M : JobModel J P K) :
    ∀ a b c : J, decide (M.priority b ≤ M.priority a) = true →
      decide (M.priority c ≤ M.priority b) = true →
      decide (M.priority c ≤ M.priority a) = true := by
  intro a b c hab hbc
  simp only [decide_eq_true_eq] at hab hbc ⊢
  exact hbc.trans hab

theorem prioLe_total [LinearOrder P] (M : JobModel J P K) :
    ∀ a b : J, (decide (M.priority b ≤ M.priority a) ||
      decide (M.priority a ≤ M.priority b)) = true := by
  intro a b
  rcases le_total (M.priority b) (M.priority a) with h | h <;> simp [h]

theorem sort_priority_sorted [LinearOrder P] (M : JobModel J P K) (q : List J) :
    (sort_priority M q).Pairwise fun a b => M.priority b ≤ M.priority a := by
  have h := List.sorted_mergeSort (prioLe_trans M) (prioLe_total M) q
  rw [sort_priority]
  exact h.imp fun hab => by simpa using hab

theorem sort_priority_stable [LinearOrder P] [DecidableEq P] (M : JobModel J P K)
    (q : List J) (p : P) :
    (sort_priority M q).filter (fun x => decide (M.priority x = p)) =
      q.filter fun x => decide (M.priority x = p) := by
  have hmem : ∀ a ∈ q.filter (fun x => decide (M.priority x = p)), M.priority a = p := by
    intro a ha
    simpa using List.of_mem_filter ha
  have hpw : (q.filter fun x => decide (M.priority x = p)).Pairwise
      fun a b : J => decide (M.priority b ≤ M.priority a) = true := by
    refine List.pairwise_of_forall_mem_list ?_
    intro a ha b hb
    simp [hmem a ha, hmem b hb]
  have hsub : (q.filter fun x => decide (M.priority x = p)).Sublist (sort_priority M q) := by
    rw [sort_priority]
    exact List.sublist_mergeSort (prioLe_trans M) (prioLe_total M) hpw (List.filter_sublist q)
  have hfself : ((q.filter fun x => decide (M.priority x = p)).filter
      fun x => decide (M.priority x = p)) = q.filter fun x => decide (M.priority x = p) := by
    rw [List.filter_eq_self]
    intro a ha
    exact @List.of_mem_filter J (fun x => decide (M.priority x = p)) a q ha
  have hsub2 : (q.filter fun x => decide (M.priority x = p)).Sublist
      ((sort_priority M q).filter fun x => decide (M.priority x = p)) := by
    have h2 := List.Sublist.filter (fun x => decide (M.priority x = p)) hsub
    rwa [hfself] at h2
  have hlen : ((sort_priority M q).filter fun x => decide (M.priority x = p)).length =
      (q.filter fun x => decide (M.priority x = p)).length := by
    have hperm : (sort_priority M q).Perm q := by
      rw [sort_priority]
      exact List.mergeSort_perm q _
    exact (hperm.filter _).length_eq
  exact (List.Sublist.eq_of_length hsub2 hlen.symm).symm

/-- C8: after every load pass — which ends by sorting the queue — the pending
queue is pairwise ordered by priority descending (so for positions i < j the
priority at i is at least the one at j), and the sort is stable: for every
priority value, the subsequence of jobs of that priority equals the one of the
pre-sort queue, so equal-priority jobs keep their relative order. -/
theorem load_sorted_stable [LinearOrder P] [DecidableEq P] (M : JobModel J P K)
    (mergeFn : Option (J → J → J × MergeResult J)) (mtch : J → J → Bool) (now : Nat)
    (pending : List J) (waitForNew : Bool) (wait : RecvOutcome J)
    (rs : List (IntervalRecurringJob J)) (queue : List J) :
    ((load M mergeFn mtch now pending waitForNew wait rs queue).2.Pairwise
      fun a b => M.priority b ≤ M.priority a) ∧
    ∀ p : P,
      (load M mergeFn mtch now pending waitForNew wait rs queue).2.filter
          (fun x => decide (M.priority x = p)) =
        (loadPre mergeFn mtch now pending waitForNew wait rs queue).2.filter
          fun x => decide (M.priority x = p) := by
  constructor
  · exact sort_priority_sorted M _
  · intro p
    exact sort_priority_stable M _ p

end GafferModel
